import Mathlib

/-!
Verification of the pen-plotter control core (`penplotter` package).

The Python source is shallowly embedded: real-valued (Python float)
quantities are modelled as exact rationals `ℚ`, Python `int` as `ℤ`,
fallible code as `Except`/`Option`-style results.  Python's `float`
rounding is not modelled; all arithmetic identities hold exactly over `ℚ`.
`math.sqrt` and `math.atan2` have no rational counterpart, so functions
that consume a Euclidean length (resp. an angle) take that value as an
explicit argument, and theorems characterise it by the side condition
`0 ≤ L ∧ L ^ 2 = dx ^ 2 + dy ^ 2` (exactly the value `math.sqrt` returns).
-/

namespace PenPlotter

/-! ## config.py — calibration constants -/

/-- `config.ADC_MIN` (Python int 0). -/
def ADC_MIN : ℤ := 0

/-- `config.ADC_MAX` (Python int 834). -/
def ADC_MAX : ℤ := 834

/-- `config.PHYSICAL_RANGE_MM` (310 mm of linear travel). -/
def PHYSICAL_RANGE_MM : ℚ := 310

/-- `config.ADC_PER_MM = (ADC_MAX - ADC_MIN) / PHYSICAL_RANGE_MM`. -/
def ADC_PER_MM : ℚ := ((ADC_MAX : ℚ) - (ADC_MIN : ℚ)) / PHYSICAL_RANGE_MM

/-- `config.MICROSTEPS_PER_REV` (200 steps × 256 microsteps × 20:1 gearbox). -/
def MICROSTEPS_PER_REV : ℚ := 1024000

/-- `config.MICROSTEPS_PER_DEGREE = MICROSTEPS_PER_REV / 360.0`. -/
def MICROSTEPS_PER_DEGREE : ℚ := MICROSTEPS_PER_REV / 360

/-- `config.PEN_OFFSET_MM` (160 mm from rotation point to pen tip). -/
def PEN_OFFSET_MM : ℚ := 160

/-- `config.LINEAR_TOLERANCE_MM` (2.5 mm declared position tolerance). -/
def LINEAR_TOLERANCE_MM : ℚ := 5 / 2

/-- `config.BOARD_WIDTH` (280 mm: x from -140 to +140). -/
def BOARD_WIDTH : ℚ := 280

/-- `config.BOARD_HEIGHT` (310 mm: y from 160 to 470). -/
def BOARD_HEIGHT : ℚ := 310

/-- `config.ANGLE_MIN` (degrees). -/
def ANGLE_MIN : ℚ := -45

/-- `config.ANGLE_MAX` (degrees). -/
def ANGLE_MAX : ℚ := 45

/-! ## Python `int()` on a real value: truncation toward zero -/

/-- Python's `int(x)` applied to a real value truncates toward zero:
`int(1.9) = 1`, `int(-1.9) = -1`.  On exact rationals that is the floor
for nonnegative arguments and the ceiling for negative ones. -/
def pyInt (q : ℚ) : ℤ :=
  if 0 ≤ q then ⌊q⌋ else ⌈q⌉

theorem pyInt_of_nonneg {q : ℚ} (h : 0 ≤ q) : pyInt q = ⌊q⌋ := by
  simp [pyInt, h]

theorem pyInt_le_of_nonneg {q : ℚ} (h : 0 ≤ q) : (pyInt q : ℚ) ≤ q := by
  rw [pyInt_of_nonneg h]; exact Int.floor_le q

theorem lt_pyInt_add_one_of_nonneg {q : ℚ} (h : 0 ≤ q) : q < pyInt q + 1 := by
  rw [pyInt_of_nonneg h]; exact Int.lt_floor_add_one q

/-- Truncation toward zero never moves the value by one or more:
`|q - int(q)| < 1` for every rational `q`. -/
theorem abs_sub_pyInt_lt_one (q : ℚ) : |q - (pyInt q : ℚ)| < 1 := by
  unfold pyInt
  by_cases h : 0 ≤ q
  · simp only [if_pos h]
    rw [abs_of_nonneg (by linarith [Int.floor_le q])]
    linarith [Int.lt_floor_add_one q]
  · simp only [if_neg h]
    rw [abs_of_nonpos (by linarith [Int.le_ceil q])]
    linarith [Int.ceil_lt_add_one q]

/-! ## kinematics/transforms.py -/

/-- `transforms.polar_to_hardware(angle_deg, radius_mm)`:

    microsteps = int(angle_deg * config.MICROSTEPS_PER_DEGREE)
    extension_mm = radius_mm - config.PEN_OFFSET_MM
    adc_value = int(extension_mm * config.ADC_PER_MM + config.ADC_MIN)
    adc_value = max(config.ADC_MIN, min(config.ADC_MAX, adc_value))
    return (microsteps, adc_value)
-/
def polar_to_hardware (angle_deg radius_mm : ℚ) : ℤ × ℤ :=
  let microsteps := pyInt (angle_deg * MICROSTEPS_PER_DEGREE)
  let extension_mm := radius_mm - PEN_OFFSET_MM
  let adc_value := pyInt (extension_mm * ADC_PER_MM + (ADC_MIN : ℚ))
  let adc_clamped := max ADC_MIN (min ADC_MAX adc_value)
  (microsteps, adc_clamped)

/-- `transforms.hardware_to_polar(microsteps, adc_value)`:

    angle_deg = microsteps / config.MICROSTEPS_PER_DEGREE
    extension_mm = (adc_value - config.ADC_MIN) / config.ADC_PER_MM
    radius_mm = extension_mm + config.PEN_OFFSET_MM
    return (angle_deg, radius_mm)
-/
def hardware_to_polar (microsteps adc_value : ℤ) : ℚ × ℚ :=
  let angle_deg : ℚ := (microsteps : ℚ) / MICROSTEPS_PER_DEGREE
  let extension_mm : ℚ := ((adc_value : ℚ) - (ADC_MIN : ℚ)) / ADC_PER_MM
  (angle_deg, extension_mm + PEN_OFFSET_MM)

/-- `transforms.cartesian_to_polar(x, y)` returns
`(degrees(atan2(x, y)), sqrt(x**2 + y**2))`.  Neither `atan2` nor `sqrt`
is rational-valued, so the radius it returns is characterised by this
predicate: `r` is exactly `math.sqrt(x**2 + y**2)` iff `IsPolarRadius x y r`
(the angle component is left abstract in theorems that need it). -/
def IsPolarRadius (x y r : ℚ) : Prop :=
  0 ≤ r ∧ r ^ 2 = x ^ 2 + y ^ 2

/-- Workspace bounds used by `control/shapes.validate_point`:
x ∈ [-BOARD_WIDTH/2, BOARD_WIDTH/2], y ∈ [PEN_OFFSET_MM, PEN_OFFSET_MM + BOARD_HEIGHT]. -/
def InWorkspace (x y : ℚ) : Prop :=
  -(BOARD_WIDTH / 2) ≤ x ∧ x ≤ BOARD_WIDTH / 2 ∧
    PEN_OFFSET_MM ≤ y ∧ y ≤ PEN_OFFSET_MM + BOARD_HEIGHT

instance (x y : ℚ) : Decidable (InWorkspace x y) := by
  unfold InWorkspace; infer_instance

instance (x y r : ℚ) : Decidable (IsPolarRadius x y r) := by
  unfold IsPolarRadius; infer_instance

/-- The ADC conversion inside `polar_to_hardware` ignores the angle: the
second component depends only on the radius.  Likewise the radius recovered
by `hardware_to_polar` depends only on the ADC value. -/
theorem polar_to_hardware_snd_angle_free (θ θ' r : ℚ) :
    (polar_to_hardware θ r).2 = (polar_to_hardware θ' r).2 := rfl

/-- C1, counterexample.  The corner region of the workspace lies outside the
calibrated radius range: the point (94, 465.3) is inside workspace bounds,
its exact distance from the origin is `sqrt (94² + 465.3²) = 474.7` mm
(a rational radius, so representable exactly), yet converting to hardware
units saturates the ADC at 834 and the recovered radius is 470 mm — off by
4.7 mm, more than the declared linear tolerance of 2.5 mm.  Since the
recovered radius is independent of the angle (see
`polar_to_hardware_snd_angle_free`), the reconstructed Cartesian point lies
on the circle of radius 470 while the original lies at radius 474.7, so the
Cartesian round-trip error is at least 4.7 mm whatever the angle is. -/
theorem cartesian_roundtrip_counterexample :
    InWorkspace 94 (4653 / 10) ∧
    IsPolarRadius 94 (4653 / 10) (4747 / 10) ∧
    (hardware_to_polar (polar_to_hardware 0 (4747 / 10)).1
        (polar_to_hardware 0 (4747 / 10)).2).2 = 470 ∧
    LINEAR_TOLERANCE_MM < 4747 / 10 - 470 ∧
    ¬ (4747 / 10 : ℚ) ≤ PEN_OFFSET_MM + PHYSICAL_RANGE_MM := by
  refine ⟨?_, ?_, ?_, ?_, ?_⟩
  · norm_num [InWorkspace, BOARD_WIDTH, BOARD_HEIGHT, PEN_OFFSET_MM]
  · norm_num [IsPolarRadius]
  · have h1 : polar_to_hardware 0 (4747 / 10) = (0, 834) := by
      unfold polar_to_hardware pyInt
      norm_num [ADC_PER_MM, ADC_MIN, ADC_MAX, PHYSICAL_RANGE_MM, PEN_OFFSET_MM,
        MICROSTEPS_PER_DEGREE, MICROSTEPS_PER_REV]
    rw [h1]
    unfold hardware_to_polar
    norm_num [ADC_PER_MM, ADC_MIN, ADC_MAX, PHYSICAL_RANGE_MM, PEN_OFFSET_MM]
  · norm_num [LINEAR_TOLERANCE_MM]
  · norm_num [PEN_OFFSET_MM, PHYSICAL_RANGE_MM]

/-- Helper: the raw angle→microsteps→angle round-trip loses less than one
microstep, i.e. less than `1 / MICROSTEPS_PER_DEGREE` degrees. -/
theorem angle_roundtrip_lt_one_microstep (θ r : ℚ) :
    |(hardware_to_polar (polar_to_hardware θ r).1 (polar_to_hardware θ r).2).1 - θ|
        < 1 / MICROSTEPS_PER_DEGREE := by
  have hK : (0 : ℚ) < MICROSTEPS_PER_DEGREE := by
    norm_num [MICROSTEPS_PER_DEGREE, MICROSTEPS_PER_REV]
  have ha : (hardware_to_polar (polar_to_hardware θ r).1 (polar_to_hardware θ r).2).1
      = (pyInt (θ * MICROSTEPS_PER_DEGREE) : ℚ) / MICROSTEPS_PER_DEGREE := rfl
  have key : (pyInt (θ * MICROSTEPS_PER_DEGREE) : ℚ) / MICROSTEPS_PER_DEGREE - θ
      = ((pyInt (θ * MICROSTEPS_PER_DEGREE) : ℚ) - θ * MICROSTEPS_PER_DEGREE)
          / MICROSTEPS_PER_DEGREE := by
    field_simp
    ring
  rw [ha, key, abs_div, abs_of_pos hK]
  have h1 : |(pyInt (θ * MICROSTEPS_PER_DEGREE) : ℚ) - θ * MICROSTEPS_PER_DEGREE| < 1 := by
    rw [abs_sub_comm]; exact abs_sub_pyInt_lt_one _
  exact (div_lt_div_iff_of_pos_right hK).mpr h1

/-- Helper: for a radius within the calibrated range `[PEN_OFFSET_MM,
PEN_OFFSET_MM + PHYSICAL_RANGE_MM]` the ADC clamp is a no-op, and the
radius→ADC→radius round-trip loses less than one ADC count in mm. -/
theorem radius_roundtrip_lt_one_adc_count (θ r : ℚ)
    (h1 : PEN_OFFSET_MM ≤ r) (h2 : r ≤ PEN_OFFSET_MM + PHYSICAL_RANGE_MM) :
    |(hardware_to_polar (polar_to_hardware θ r).1 (polar_to_hardware θ r).2).2 - r|
        < 1 / ADC_PER_MM := by
  have hA : (0 : ℚ) < ADC_PER_MM := by
    norm_num [ADC_PER_MM, ADC_MIN, ADC_MAX, PHYSICAL_RANGE_MM]
  obtain ⟨v, hv⟩ : ∃ v : ℚ, v = (r - PEN_OFFSET_MM) * ADC_PER_MM + (ADC_MIN : ℚ) := ⟨_, rfl⟩
  have hv0 : 0 ≤ v := by
    have : 0 ≤ (r - PEN_OFFSET_MM) * ADC_PER_MM := mul_nonneg (by linarith) hA.le
    rw [hv]; simp only [ADC_MIN, Int.cast_zero, add_zero]; linarith
  have hv834 : v ≤ 834 := by
    have hext : r - PEN_OFFSET_MM ≤ PHYSICAL_RANGE_MM := by linarith
    have hm : (r - PEN_OFFSET_MM) * ADC_PER_MM ≤ PHYSICAL_RANGE_MM * ADC_PER_MM :=
      mul_le_mul_of_nonneg_right hext hA.le
    have h310 : PHYSICAL_RANGE_MM * ADC_PER_MM = 834 := by
      norm_num [ADC_PER_MM, ADC_MIN, ADC_MAX, PHYSICAL_RANGE_MM]
    rw [hv]; simp only [ADC_MIN, Int.cast_zero, add_zero]; linarith
  have hfl0 : (0 : ℤ) ≤ ⌊v⌋ := Int.floor_nonneg.mpr hv0
  have hfl834 : ⌊v⌋ ≤ 834 := by
    have h := Int.floor_le_floor (α := ℚ) hv834
    simpa using h
  have hclamp : max ADC_MIN (min ADC_MAX (pyInt v)) = ⌊v⌋ := by
    rw [pyInt_of_nonneg hv0]
    simp only [ADC_MIN, ADC_MAX]
    omega
  have hr' : (hardware_to_polar (polar_to_hardware θ r).1 (polar_to_hardware θ r).2).2
      = (((max ADC_MIN (min ADC_MAX (pyInt v)) : ℤ) : ℚ) - (ADC_MIN : ℚ)) / ADC_PER_MM
          + PEN_OFFSET_MM := by
    rw [hv]; rfl
  rw [hclamp] at hr'
  have hrv : r = (v - (ADC_MIN : ℚ)) / ADC_PER_MM + PEN_OFFSET_MM := by
    rw [hv]; field_simp
  have hdiff : (hardware_to_polar (polar_to_hardware θ r).1 (polar_to_hardware θ r).2).2 - r
      = ((⌊v⌋ : ℚ) - v) / ADC_PER_MM := by
    rw [hr']; conv_lhs => rw [hrv]
    ring
  rw [hdiff, abs_div, abs_of_pos hA]
  have hlt : |(⌊v⌋ : ℚ) - v| < 1 := by
    rw [abs_sub_lt_iff]
    constructor <;> linarith [Int.floor_le v, Int.lt_floor_add_one v]
  exact (div_lt_div_iff_of_pos_right hA).mpr hlt

/-- C1, amended: for points within workspace bounds whose exact radius also
lies within the calibrated range `PEN_OFFSET_MM + PHYSICAL_RANGE_MM`
(= 470 mm), the hardware round-trip reproduces the polar pose within the
quantization tolerance: the radius within one ADC count (`1 / ADC_PER_MM`
≈ 0.37 mm, below the declared 2.5 mm linear tolerance) and the angle within
one microstep (`1 / MICROSTEPS_PER_DEGREE` degrees).  Since
Cartesian ↔ polar conversion is exact in real arithmetic, this is the
full quantization error of the Cartesian round-trip. -/
theorem cartesian_roundtrip_amended (x y r θ : ℚ)
    (hw : InWorkspace x y) (hr : IsPolarRadius x y r)
    (hcal : r ≤ PEN_OFFSET_MM + PHYSICAL_RANGE_MM) :
    |(hardware_to_polar (polar_to_hardware θ r).1 (polar_to_hardware θ r).2).2 - r|
        < 1 / ADC_PER_MM ∧
    (1 : ℚ) / ADC_PER_MM ≤ LINEAR_TOLERANCE_MM ∧
    |(hardware_to_polar (polar_to_hardware θ r).1 (polar_to_hardware θ r).2).1 - θ|
        < 1 / MICROSTEPS_PER_DEGREE := by
  obtain ⟨hr0, hr2⟩ := hr
  obtain ⟨hx1, hx2, hy1, hy2⟩ := hw
  have hrlow : PEN_OFFSET_MM ≤ r := by
    have h160 : (160 : ℚ) ≤ y := by
      simpa [PEN_OFFSET_MM] using hy1
    have hsq : (160 : ℚ) ^ 2 ≤ r ^ 2 := by nlinarith
    have : (160 : ℚ) ≤ r := by nlinarith
    simpa [PEN_OFFSET_MM] using this
  refine ⟨radius_roundtrip_lt_one_adc_count θ r hrlow hcal, ?_,
    angle_roundtrip_lt_one_microstep θ r⟩
  norm_num [ADC_PER_MM, ADC_MIN, ADC_MAX, PHYSICAL_RANGE_MM, LINEAR_TOLERANCE_MM]

/-- Witness for `cartesian_roundtrip_amended` at the concrete in-range point
(0, 200), whose exact radius is 200. -/
theorem cartesian_roundtrip_amended_witness :
    InWorkspace 0 200 ∧ IsPolarRadius 0 200 200 ∧
      ((200 : ℚ) ≤ PEN_OFFSET_MM + PHYSICAL_RANGE_MM) ∧
      |(hardware_to_polar (polar_to_hardware 0 200).1 (polar_to_hardware 0 200).2).2 - 200|
          < 1 / ADC_PER_MM :=
  have h1 : InWorkspace 0 200 := by
    norm_num [InWorkspace, BOARD_WIDTH, BOARD_HEIGHT, PEN_OFFSET_MM]
  have h2 : IsPolarRadius 0 200 200 := by norm_num [IsPolarRadius]
  have h3 : (200 : ℚ) ≤ PEN_OFFSET_MM + PHYSICAL_RANGE_MM := by
    norm_num [PEN_OFFSET_MM, PHYSICAL_RANGE_MM]
  ⟨h1, h2, h3, (cartesian_roundtrip_amended 0 200 200 0 h1 h2 h3).1⟩

/-- C2, counterexample: `polar_to_hardware` converts with Python `int()`,
which truncates toward zero, not with `round(...)` as claimed.  At
angle 27/51200 degrees the product with `MICROSTEPS_PER_DEGREE` is exactly
1.5; every rounding convention (Python's round-half-even and Mathlib's
round-half-up alike) maps 1.5 to 2, but the code returns microsteps 1. -/
theorem polar_to_hardware_round_counterexample :
    (27 / 51200 : ℚ) * MICROSTEPS_PER_DEGREE = 3 / 2 ∧
    (polar_to_hardware (27 / 51200) 200).1 = 1 ∧
    round ((27 / 51200 : ℚ) * MICROSTEPS_PER_DEGREE) = 2 := by
  refine ⟨?_, ?_, ?_⟩
  · norm_num [MICROSTEPS_PER_DEGREE, MICROSTEPS_PER_REV]
  · unfold polar_to_hardware pyInt
    norm_num [MICROSTEPS_PER_DEGREE, MICROSTEPS_PER_REV]
  · norm_num [MICROSTEPS_PER_DEGREE, MICROSTEPS_PER_REV, round_eq]

/-- C2, amended: for every `angle_deg` and `radius_mm`,
`polar_to_hardware` returns microsteps `int(angle_deg × MICROSTEPS_PER_DEGREE)`
(truncation toward zero, not `round`) and
adc `int((radius_mm − PEN_OFFSET_MM) × ADC_PER_MM + ADC_MIN)` clamped
silently into `[ADC_MIN, ADC_MAX]`: the result always lies in that interval,
equals the truncated value whenever it is in range, and saturates at the
violated bound otherwise.  The function is total (never raises), even for a
radius outside the calibrated range. -/
theorem polar_to_hardware_formula (θ r : ℚ) :
    (polar_to_hardware θ r).1 = pyInt (θ * MICROSTEPS_PER_DEGREE) ∧
    ADC_MIN ≤ (polar_to_hardware θ r).2 ∧
    (polar_to_hardware θ r).2 ≤ ADC_MAX ∧
    (ADC_MIN ≤ pyInt ((r - PEN_OFFSET_MM) * ADC_PER_MM + (ADC_MIN : ℚ)) →
      pyInt ((r - PEN_OFFSET_MM) * ADC_PER_MM + (ADC_MIN : ℚ)) ≤ ADC_MAX →
      (polar_to_hardware θ r).2 = pyInt ((r - PEN_OFFSET_MM) * ADC_PER_MM + (ADC_MIN : ℚ))) ∧
    (pyInt ((r - PEN_OFFSET_MM) * ADC_PER_MM + (ADC_MIN : ℚ)) < ADC_MIN →
      (polar_to_hardware θ r).2 = ADC_MIN) ∧
    (ADC_MAX < pyInt ((r - PEN_OFFSET_MM) * ADC_PER_MM + (ADC_MIN : ℚ)) →
      (polar_to_hardware θ r).2 = ADC_MAX) := by
  have h2 : (polar_to_hardware θ r).2
      = max ADC_MIN (min ADC_MAX (pyInt ((r - PEN_OFFSET_MM) * ADC_PER_MM + (ADC_MIN : ℚ)))) :=
    rfl
  rw [h2]
  generalize pyInt ((r - PEN_OFFSET_MM) * ADC_PER_MM + (ADC_MIN : ℚ)) = k
  simp only [ADC_MIN, ADC_MAX]
  refine ⟨rfl, ?_, ?_, ?_, ?_, ?_⟩ <;> omega

/-- Witness for `polar_to_hardware_formula`: at angle 1°, radius 200 mm the
raw ADC value 107 is in range, so the clamp leaves it unchanged. -/
theorem polar_to_hardware_formula_witness :
    (polar_to_hardware 1 200).2 = pyInt ((200 - PEN_OFFSET_MM) * ADC_PER_MM + (ADC_MIN : ℚ)) :=
  have hlo : ADC_MIN ≤ pyInt ((200 - PEN_OFFSET_MM) * ADC_PER_MM + (ADC_MIN : ℚ)) := by
    unfold pyInt
    norm_num [ADC_PER_MM, ADC_MIN, ADC_MAX, PHYSICAL_RANGE_MM, PEN_OFFSET_MM]
  have hhi : pyInt ((200 - PEN_OFFSET_MM) * ADC_PER_MM + (ADC_MIN : ℚ)) ≤ ADC_MAX := by
    unfold pyInt
    norm_num [ADC_PER_MM, ADC_MIN, ADC_MAX, PHYSICAL_RANGE_MM, PEN_OFFSET_MM]
  (polar_to_hardware_formula 1 200).2.2.2.1 hlo hhi

/-- C10: `polar_to_hardware` is total — a pure function of its two arguments
with no error path (the model has no `Except`; the source body performs only
arithmetic, `int()` and `max`/`min`).  The microsteps output is the truncated
product, never clamped: for any target `M` there are angles beyond
`ANGLE_MAX` whose microsteps output exceeds `M`, so angle-range safety is
not enforced by the transform; only the ADC channel saturates. -/
theorem polar_to_hardware_total_no_angle_clamp (θ r : ℚ) :
    (polar_to_hardware θ r).1 = pyInt (θ * MICROSTEPS_PER_DEGREE) ∧
    (∀ M : ℤ, ∃ θ' : ℚ, ANGLE_MAX < θ' ∧ M ≤ (polar_to_hardware θ' r).1) := by
  have hK : (0 : ℚ) < MICROSTEPS_PER_DEGREE := by
    norm_num [MICROSTEPS_PER_DEGREE, MICROSTEPS_PER_REV]
  refine ⟨rfl, fun M => ?_⟩
  refine ⟨max ((M : ℚ) / MICROSTEPS_PER_DEGREE) 0 + 46, ?_, ?_⟩
  · have h0 : (0 : ℚ) ≤ max ((M : ℚ) / MICROSTEPS_PER_DEGREE) 0 := le_max_right _ _
    have : ANGLE_MAX = (45 : ℚ) := rfl
    linarith
  · have h0 : (0 : ℚ) ≤ max ((M : ℚ) / MICROSTEPS_PER_DEGREE) 0 := le_max_right _ _
    have hθ' : (M : ℚ) / MICROSTEPS_PER_DEGREE
        ≤ max ((M : ℚ) / MICROSTEPS_PER_DEGREE) 0 + 46 := by
      have := le_max_left ((M : ℚ) / MICROSTEPS_PER_DEGREE) 0
      linarith
    have harg : (M : ℚ) ≤ (max ((M : ℚ) / MICROSTEPS_PER_DEGREE) 0 + 46) * MICROSTEPS_PER_DEGREE :=
      (div_le_iff₀ hK).mp hθ'
    have hpos : 0 ≤ (max ((M : ℚ) / MICROSTEPS_PER_DEGREE) 0 + 46) * MICROSTEPS_PER_DEGREE :=
      mul_nonneg (by linarith) hK.le
    have h1 : (polar_to_hardware (max ((M : ℚ) / MICROSTEPS_PER_DEGREE) 0 + 46) r).1
        = pyInt ((max ((M : ℚ) / MICROSTEPS_PER_DEGREE) 0 + 46) * MICROSTEPS_PER_DEGREE) := rfl
    rw [h1, pyInt_of_nonneg hpos]
    exact Int.le_floor.mpr harg

/-! ## path/interpolation.py -/

/-- Squared Euclidean distance between two Cartesian points (the source
compares `math.sqrt` of this against `step_size`). -/
def dist2 (p q : ℚ × ℚ) : ℚ :=
  (q.1 - p.1) ^ 2 + (q.2 - p.2) ^ 2

/-- `interpolation.interpolate_line(start, end, step_size)`:

    dx = x2 - x1; dy = y2 - y1
    length = math.sqrt(dx * dx + dy * dy)
    if length < step_size: return [start, end]
    num_segments = int(math.ceil(length / step_size))
    num_points = num_segments + 1
    points = [(x1 + (i / num_segments) * dx, y1 + (i / num_segments) * dy)
              for i in range(num_points)]

`math.sqrt` is not rational-valued, so the computed `length` is passed as
an explicit final argument; theorems constrain it by
`0 ≤ length ∧ length ^ 2 = dist2 start stop`, which characterises the
exact square root.  (For `num_segments = 0` the source would divide by
zero; under a positive step size that branch is unreachable, and over `ℚ`
division by zero yields 0.) -/
def interpolate_line (start stop : ℚ × ℚ) (step_size length : ℚ) : List (ℚ × ℚ) :=
  let dx := stop.1 - start.1
  let dy := stop.2 - start.2
  if length < step_size then [start, stop]
  else
    let num_segments : ℤ := ⌈length / step_size⌉
    (List.range (num_segments + 1).toNat).map fun (i : ℕ) =>
      (start.1 + ((i : ℚ) / (num_segments : ℚ)) * dx,
       start.2 + ((i : ℚ) / (num_segments : ℚ)) * dy)

/-- Reduction of `interpolate_line` in the short branch. -/
theorem interpolate_line_short {start stop : ℚ × ℚ} {step L : ℚ} (h : L < step) :
    interpolate_line start stop step L = [start, stop] := by
  unfold interpolate_line
  simp [h]

/-- Reduction of `interpolate_line` in the long branch. -/
theorem interpolate_line_long {start stop : ℚ × ℚ} {step L : ℚ} (h : ¬ L < step) :
    interpolate_line start stop step L =
      (List.range (⌈L / step⌉ + 1).toNat).map fun (i : ℕ) =>
        (start.1 + ((i : ℚ) / ((⌈L / step⌉ : ℤ) : ℚ)) * (stop.1 - start.1),
         start.2 + ((i : ℚ) / ((⌈L / step⌉ : ℤ) : ℚ)) * (stop.2 - start.2)) := by
  unfold interpolate_line
  simp [h]

/-- In the long branch the segment count `⌈length / step⌉` is at least 1. -/
theorem interpolate_line_segments_pos {step L : ℚ} (hstep : 0 < step) (hge : step ≤ L) :
    1 ≤ ⌈L / step⌉ := by
  have h1 : (1 : ℚ) ≤ L / step := (le_div_iff₀ hstep).mpr (by linarith)
  calc (1 : ℤ) = ⌈(1 : ℚ)⌉ := by norm_num
    _ ≤ ⌈L / step⌉ := Int.ceil_le_ceil h1

theorem interpolate_line_head (start stop : ℚ × ℚ) {step L : ℚ}
    (hstep : 0 < step) :
    (interpolate_line start stop step L).head? = some start := by
  unfold interpolate_line
  by_cases h : L < step
  · simp [h]
  · have hn : 1 ≤ ⌈L / step⌉ := interpolate_line_segments_pos hstep (le_of_not_lt h)
    have htn : (⌈L / step⌉ + 1).toNat = ⌈L / step⌉.toNat + 1 := by omega
    simp only [if_neg h, htn, List.range_succ_eq_map, List.map_cons, List.head?_cons]
    norm_num

theorem interpolate_line_getLast (start stop : ℚ × ℚ) {step L : ℚ}
    (hstep : 0 < step) :
    (interpolate_line start stop step L).getLast? = some stop := by
  unfold interpolate_line
  by_cases h : L < step
  · simp [h, List.getLast?]
  · have hn : 1 ≤ ⌈L / step⌉ := interpolate_line_segments_pos hstep (le_of_not_lt h)
    have htn : (⌈L / step⌉ + 1).toNat = ⌈L / step⌉.toNat + 1 := by omega
    have hne : ((⌈L / step⌉ : ℚ)) ≠ 0 := by
      have : (1 : ℚ) ≤ (⌈L / step⌉ : ℚ) := by exact_mod_cast hn
      linarith
    have hcast : ((⌈L / step⌉.toNat : ℚ)) = ((⌈L / step⌉ : ℚ)) := by
      have := Int.toNat_of_nonneg (by omega : (0 : ℤ) ≤ ⌈L / step⌉)
      exact_mod_cast congrArg (fun z : ℤ => (z : ℚ)) this
    simp only [if_neg h, htn, List.range_succ, List.map_append, List.map_cons, List.map_nil,
      List.getLast?_concat]
    rw [hcast, div_self hne]
    norm_num

theorem interpolate_line_length_ge_two (start stop : ℚ × ℚ) {step L : ℚ}
    (hstep : 0 < step) :
    2 ≤ (interpolate_line start stop step L).length := by
  unfold interpolate_line
  by_cases h : L < step
  · simp [h]
  · have hn : 1 ≤ ⌈L / step⌉ := interpolate_line_segments_pos hstep (le_of_not_lt h)
    simp only [if_neg h, List.length_map, List.length_range]
    omega

theorem interpolate_line_length_long (start stop : ℚ × ℚ) {step L : ℚ}
    (hstep : 0 < step) (hge : step ≤ L) :
    (interpolate_line start stop step L).length = ⌈L / step⌉.toNat + 1 := by
  unfold interpolate_line
  have h : ¬ L < step := not_lt.mpr hge
  have hn : 1 ≤ ⌈L / step⌉ := interpolate_line_segments_pos hstep hge
  simp only [if_neg h, List.length_map, List.length_range]
  omega

/-- Every consecutive pair of interpolated points is at most `step` apart
(stated on squared distances, since the distance itself is irrational in
general). -/
theorem interpolate_line_chain_close (start stop : ℚ × ℚ) {step L : ℚ}
    (hstep : 0 < step) (hL0 : 0 ≤ L) (hL2 : L ^ 2 = dist2 start stop) :
    List.Chain' (fun p q => dist2 p q ≤ step ^ 2) (interpolate_line start stop step L) := by
  by_cases h : L < step
  · rw [interpolate_line_short h]
    refine List.chain'_pair.mpr ?_
    calc dist2 start stop = L ^ 2 := hL2.symm
      _ ≤ step ^ 2 := by nlinarith
  · have hn : 1 ≤ ⌈L / step⌉ := interpolate_line_segments_pos hstep (le_of_not_lt h)
    have hnq : (0 : ℚ) < (⌈L / step⌉ : ℚ) := by exact_mod_cast hn
    have hLn : L ≤ (⌈L / step⌉ : ℚ) * step := by
      have h1 : L / step ≤ (⌈L / step⌉ : ℚ) := Int.le_ceil _
      calc L = L / step * step := by field_simp
        _ ≤ (⌈L / step⌉ : ℚ) * step := by
          exact mul_le_mul_of_nonneg_right h1 hstep.le
    rw [interpolate_line_long h, List.chain'_map]
    have htn : (⌈L / step⌉ + 1).toNat = ⌈L / step⌉.toNat + 1 := by omega
    rw [htn, ← Nat.succ_eq_add_one, List.chain'_range_succ]
    intro m hm
    -- adjacent points differ by (dx / n, dy / n)
    have hstepdist :
        dist2 (start.1 + ((m : ℚ) / (⌈L / step⌉ : ℚ)) * (stop.1 - start.1),
               start.2 + ((m : ℚ) / (⌈L / step⌉ : ℚ)) * (stop.2 - start.2))
              (start.1 + ((m.succ : ℚ) / (⌈L / step⌉ : ℚ)) * (stop.1 - start.1),
               start.2 + ((m.succ : ℚ) / (⌈L / step⌉ : ℚ)) * (stop.2 - start.2))
          = ((stop.1 - start.1) ^ 2 + (stop.2 - start.2) ^ 2) / (⌈L / step⌉ : ℚ) ^ 2 := by
      unfold dist2
      have hsucc : ((m.succ : ℚ)) = (m : ℚ) + 1 := by push_cast; ring
      rw [hsucc]
      field_simp
      ring
    rw [hstepdist]
    have hd : (stop.1 - start.1) ^ 2 + (stop.2 - start.2) ^ 2 = L ^ 2 := by
      rw [hL2]; unfold dist2; ring
    rw [hd, div_le_iff₀ (by positivity)]
    calc L ^ 2 ≤ ((⌈L / step⌉ : ℚ) * step) ^ 2 := by nlinarith
      _ = step ^ 2 * (⌈L / step⌉ : ℚ) ^ 2 := by ring

/-- If the endpoints differ, consecutive interpolated points are pairwise
distinct (adjacent points differ by the nonzero vector `(dx/n, dy/n)`). -/
theorem interpolate_line_chain_ne (start stop : ℚ × ℚ) {step L : ℚ}
    (hstep : 0 < step) (hne : start ≠ stop) :
    List.Chain' (· ≠ ·) (interpolate_line start stop step L) := by
  by_cases h : L < step
  · rw [interpolate_line_short h]
    exact List.chain'_pair.mpr hne
  · have hn : 1 ≤ ⌈L / step⌉ := interpolate_line_segments_pos hstep (le_of_not_lt h)
    have hnq : (0 : ℚ) < (⌈L / step⌉ : ℚ) := by exact_mod_cast hn
    have hdxy : stop.1 - start.1 ≠ 0 ∨ stop.2 - start.2 ≠ 0 := by
      by_contra hc
      push_neg at hc
      obtain ⟨h1, h2⟩ := hc
      exact hne (Prod.ext (by linarith) (by linarith)).symm
    rw [interpolate_line_long h, List.chain'_map]
    have htn : (⌈L / step⌉ + 1).toNat = ⌈L / step⌉.toNat + 1 := by omega
    rw [htn, ← Nat.succ_eq_add_one, List.chain'_range_succ]
    intro m hm
    intro heq
    have hsucc : ((m.succ : ℚ)) = (m : ℚ) + 1 := by push_cast; ring
    have h1 := congrArg Prod.fst heq
    have h2 := congrArg Prod.snd heq
    simp only [hsucc] at h1 h2
    rcases hdxy with hd | hd
    · apply hd
      have hkey : ((m : ℚ) + 1) / (⌈L / step⌉ : ℚ) * (stop.1 - start.1)
          - (m : ℚ) / (⌈L / step⌉ : ℚ) * (stop.1 - start.1)
          = (stop.1 - start.1) / (⌈L / step⌉ : ℚ) := by
        field_simp
        ring
      have hz : (stop.1 - start.1) / (⌈L / step⌉ : ℚ) = 0 := by
        rw [← hkey]
        linarith
      exact (div_eq_zero_iff.mp hz).resolve_right (by positivity)
    · apply hd
      have hkey : ((m : ℚ) + 1) / (⌈L / step⌉ : ℚ) * (stop.2 - start.2)
          - (m : ℚ) / (⌈L / step⌉ : ℚ) * (stop.2 - start.2)
          = (stop.2 - start.2) / (⌈L / step⌉ : ℚ) := by
        field_simp
        ring
      have hz : (stop.2 - start.2) / (⌈L / step⌉ : ℚ) = 0 := by
        rw [← hkey]
        linarith
      exact (div_eq_zero_iff.mp hz).resolve_right (by positivity)

/-- C3: `interpolate_line` returns exactly `[start, end]` when the distance
is below `step_size` (so `start = end` yields two points); otherwise, with
`n = ceil(distance / step_size)`, it returns `n + 1` points parameterized
by `t = i / n`; in both cases it returns at least two points, the first is
exactly `start`, the last exactly `end` (exact over `ℚ`; the source's
floating arithmetic carries only representation error), and consecutive
points are at most `step_size` apart (stated on squared distances). -/
theorem interpolate_line_spec (start stop : ℚ × ℚ) (step L : ℚ)
    (hstep : 0 < step) (hL0 : 0 ≤ L) (hL2 : L ^ 2 = dist2 start stop) :
    (L < step → interpolate_line start stop step L = [start, stop]) ∧
    2 ≤ (interpolate_line start stop step L).length ∧
    (interpolate_line start stop step L).head? = some start ∧
    (interpolate_line start stop step L).getLast? = some stop ∧
    (step ≤ L → (interpolate_line start stop step L).length = ⌈L / step⌉.toNat + 1) ∧
    List.Chain' (fun p q => dist2 p q ≤ step ^ 2) (interpolate_line start stop step L) := by
  refine ⟨fun h => ?_, interpolate_line_length_ge_two start stop hstep,
    interpolate_line_head start stop hstep, interpolate_line_getLast start stop hstep,
    fun h => interpolate_line_length_long start stop hstep h,
    interpolate_line_chain_close start stop hstep hL0 hL2⟩
  unfold interpolate_line
  simp [h]

/-- Witness for `interpolate_line_spec`: the 3-4-5 segment from (0,0) to
(3,4) at step 1 has exact length 5 and is split into 5 sub-steps. -/
theorem interpolate_line_spec_witness :
    (0 : ℚ) < 1 ∧ (0 : ℚ) ≤ 5 ∧ (5 : ℚ) ^ 2 = dist2 (0, 0) (3, 4) ∧
    (interpolate_line (0, 0) (3, 4) 1 5).head? = some (0, 0) ∧
    (interpolate_line (0, 0) (3, 4) 1 5).getLast? = some (3, 4) ∧
    (interpolate_line (0, 0) (3, 4) 1 5).length = ⌈(5 : ℚ) / 1⌉.toNat + 1 :=
  have h1 : (0 : ℚ) < 1 := by norm_num
  have h2 : (0 : ℚ) ≤ 5 := by norm_num
  have h3 : (5 : ℚ) ^ 2 = dist2 (0, 0) (3, 4) := by norm_num [dist2]
  have hs := interpolate_line_spec (0, 0) (3, 4) 1 5 h1 h2 h3
  ⟨h1, h2, h3, hs.2.2.1, hs.2.2.2.1, hs.2.2.2.2.1 (by norm_num)⟩

/-! ## path/bezier.py and the segment-composition loops -/

/-- One point of the cubic Bezier evaluated in `bezier.generate_bezier_curve`:

    b0 = (1 - t) ** 3; b1 = 3 * (1 - t) ** 2 * t
    b2 = 3 * (1 - t) * t ** 2; b3 = t ** 3
    point = b0 * p0 + b1 * p1 + b2 * p2 + b3 * p3
-/
def bezier_point (p0 p1 p2 p3 : ℚ × ℚ) (t : ℚ) : ℚ × ℚ :=
  ((1 - t) ^ 3 * p0.1 + 3 * (1 - t) ^ 2 * t * p1.1 + 3 * (1 - t) * t ^ 2 * p2.1 + t ^ 3 * p3.1,
   (1 - t) ^ 3 * p0.2 + 3 * (1 - t) ^ 2 * t * p1.2 + 3 * (1 - t) * t ^ 2 * p2.2 + t ^ 3 * p3.2)

/-- `bezier.generate_bezier_curve(start, end, control_points, num_samples)`
samples the cubic Bezier at `np.linspace(0, 1, num_samples)`, i.e. at
`t = i / (num_samples - 1)` for `i = 0 .. num_samples - 1`.  The source
takes the two control points as a list and raises `ValueError` unless it
has exactly two elements; here the checked-for case is expressed by two
explicit control-point arguments `c1 c2`. -/
def generate_bezier_curve (start stop c1 c2 : ℚ × ℚ) (num_samples : ℕ) : List (ℚ × ℚ) :=
  (List.range num_samples).map fun (i : ℕ) =>
    bezier_point start c1 c2 stop ((i : ℚ) / ((num_samples : ℚ) - 1))

/-- The tail-segments loop shared (verbatim, same statement sequence) by
`interpolation.interpolate_path` and `curves.draw_curve`: for every segment
after the first, `interpolate_line` is called and its first point dropped
(`segment[1:]`), because it was already emitted as the previous segment's
last point.  `lenOf p q` stands for the `math.sqrt` length computed inside
`interpolate_line` for the pair `(p, q)`. -/
def interpolate_path_rest (step : ℚ) (lenOf : ℚ × ℚ → ℚ × ℚ → ℚ) :
    ℚ × ℚ → List (ℚ × ℚ) → List (ℚ × ℚ)
  | _, [] => []
  | prev, q :: rest =>
      (interpolate_line prev q step (lenOf prev q)).tail
        ++ interpolate_path_rest step lenOf q rest

/-- The full composition loop `for i in range(len(points) - 1)` with the
first segment emitted whole and later segments de-duplicated; used by
`interpolate_path` (after its `len < 2` guard) and by `draw_curve` on the
coarse Bezier samples. -/
def compose_fine (step : ℚ) (lenOf : ℚ × ℚ → ℚ × ℚ → ℚ) :
    List (ℚ × ℚ) → List (ℚ × ℚ)
  | [] => []
  | [_] => []
  | p :: q :: rest =>
      interpolate_line p q step (lenOf p q) ++ interpolate_path_rest step lenOf q rest

/-- `interpolation.interpolate_path(points, step_size)`: returns `points`
unchanged when it has fewer than two entries, else runs the composition
loop. -/
def interpolate_path (points : List (ℚ × ℚ)) (step : ℚ)
    (lenOf : ℚ × ℚ → ℚ × ℚ → ℚ) : List (ℚ × ℚ) :=
  if points.length < 2 then points else compose_fine step lenOf points

/-- The fine point sequence `all_points` built by `curves.draw_curve`:
the cubic Bezier is sampled at the hard-coded `num_samples=100`, then each
consecutive pair of coarse samples is re-interpolated with
`interpolate_line`, dropping the first point of every segment but the
first. -/
def draw_curve_points (start stop c1 c2 : ℚ × ℚ) (step : ℚ)
    (lenOf : ℚ × ℚ → ℚ × ℚ → ℚ) : List (ℚ × ℚ) :=
  compose_fine step lenOf (generate_bezier_curve start stop c1 c2 100)

/-- If the interpolated points of one segment start at `p`, re-attaching `p`
to the tail reconstitutes the whole segment. -/
theorem cons_tail_interpolate_line (p q : ℚ × ℚ) {step L : ℚ} (hstep : 0 < step) :
    p :: (interpolate_line p q step L).tail = interpolate_line p q step L := by
  have hh := interpolate_line_head p q (L := L) hstep
  cases hl : interpolate_line p q step L with
  | nil => rw [hl] at hh; simp at hh
  | cons a t =>
    rw [hl] at hh
    simp only [List.head?_cons, Option.some.injEq] at hh
    rw [hh]
    rfl

/-- Core induction for C6: starting from any coarse point `q`, the
de-duplicated tail-segments loop preserves adjacent distinctness, provided
consecutive coarse points are distinct. -/
theorem interpolate_path_rest_chain_ne (step : ℚ) (lenOf : ℚ × ℚ → ℚ × ℚ → ℚ)
    (hstep : 0 < step) :
    ∀ (rest : List (ℚ × ℚ)) (q : ℚ × ℚ), List.Chain' (· ≠ ·) (q :: rest) →
      List.Chain' (· ≠ ·) (q :: interpolate_path_rest step lenOf q rest) := by
  intro rest
  induction rest with
  | nil => intro q _; exact List.chain'_singleton q
  | cons r rest' ih =>
    intro q hch
    have hqr : q ≠ r := (List.chain'_cons.mp hch).1
    have hrest : List.Chain' (· ≠ ·) (r :: rest') := (List.chain'_cons.mp hch).2
    have hIL : List.Chain' (· ≠ ·) (interpolate_line q r step (lenOf q r)) :=
      interpolate_line_chain_ne q r hstep hqr
    have hIH := ih r hrest
    have hglue := List.chain'_cons'.mp hIH
    show List.Chain' (· ≠ ·)
      (q :: ((interpolate_line q r step (lenOf q r)).tail
        ++ interpolate_path_rest step lenOf r rest'))
    rw [← List.cons_append, cons_tail_interpolate_line q r hstep]
    refine List.Chain'.append hIL hglue.2 ?_
    intro x hx y hy
    have hlast := interpolate_line_getLast q r (L := lenOf q r) hstep
    rw [hlast] at hx
    simp only [Option.mem_def, Option.some.injEq] at hx
    subst hx
    exact hglue.1 y hy

/-- The composition loop preserves adjacent distinctness of the coarse
polyline. -/
theorem compose_fine_chain_ne (step : ℚ) (lenOf : ℚ × ℚ → ℚ × ℚ → ℚ)
    (hstep : 0 < step) (points : List (ℚ × ℚ))
    (hch : List.Chain' (· ≠ ·) points) :
    List.Chain' (· ≠ ·) (compose_fine step lenOf points) := by
  match points with
  | [] => exact List.chain'_nil
  | [p] => exact List.chain'_nil
  | p :: q :: rest =>
    have hpq : p ≠ q := (List.chain'_cons.mp hch).1
    have hqrest : List.Chain' (· ≠ ·) (q :: rest) := (List.chain'_cons.mp hch).2
    have hIL : List.Chain' (· ≠ ·) (interpolate_line p q step (lenOf p q)) :=
      interpolate_line_chain_ne p q hstep hpq
    have hIH := interpolate_path_rest_chain_ne step lenOf hstep rest q hqrest
    have hglue := List.chain'_cons'.mp hIH
    show List.Chain' (· ≠ ·)
      (interpolate_line p q step (lenOf p q) ++ interpolate_path_rest step lenOf q rest)
    refine List.Chain'.append hIL hglue.2 ?_
    intro x hx y hy
    have hlast := interpolate_line_getLast p q (L := lenOf p q) hstep
    rw [hlast] at hx
    simp only [Option.mem_def, Option.some.injEq] at hx
    subst hx
    exact hglue.1 y hy

/-- C6, counterexample: a degenerate segment defeats the de-duplication.
`interpolate_line(p, p, step)` returns `[p, p]`, so `interpolate_path` over
the waypoint list `[p, p]` emits the point of that zero-length segment
twice in adjacent positions, and `draw_curve` over the degenerate Bezier
whose four control points coincide (all coarse samples equal) likewise
begins its fine sequence with the same point twice. -/
theorem path_dedup_counterexample :
    ¬ List.Chain' (· ≠ ·)
        (interpolate_path [((0 : ℚ), (0 : ℚ)), (0, 0)] 1 fun _ _ => 0) ∧
    ¬ List.Chain' (· ≠ ·)
        (draw_curve_points (0, 0) (0, 0) (0, 0) (0, 0) 1 fun _ _ => 0) := by
  have hIL : interpolate_line ((0 : ℚ), (0 : ℚ)) (0, 0) 1 0 = [(0, 0), (0, 0)] :=
    interpolate_line_short (by norm_num)
  constructor
  · have h1 : interpolate_path [((0 : ℚ), (0 : ℚ)), (0, 0)] 1 (fun _ _ => 0)
        = [(0, 0), (0, 0)] := by
      unfold interpolate_path
      norm_num
      show interpolate_line ((0 : ℚ), (0 : ℚ)) (0, 0) 1 0
          ++ interpolate_path_rest 1 (fun _ _ => 0) (0, 0) [] = _
      rw [hIL]
      rfl
    rw [h1]
    intro hch
    exact (List.chain'_cons.mp hch).1 rfl
  · have hb : generate_bezier_curve ((0 : ℚ), (0 : ℚ)) (0, 0) (0, 0) (0, 0) 100
        = List.replicate 100 ((0 : ℚ), (0 : ℚ)) := by
      unfold generate_bezier_curve bezier_point
      simp
    have h2 : draw_curve_points ((0 : ℚ), (0 : ℚ)) (0, 0) (0, 0) (0, 0) 1 (fun _ _ => 0)
        = (0, 0) :: (0, 0)
            :: interpolate_path_rest 1 (fun _ _ => 0) (0, 0) (List.replicate 98 (0, 0)) := by
      unfold draw_curve_points
      rw [hb]
      show interpolate_line ((0 : ℚ), (0 : ℚ)) (0, 0) 1 0
          ++ interpolate_path_rest 1 (fun _ _ => 0) (0, 0) (List.replicate 98 (0, 0)) = _
      rw [hIL]
      rfl
    rw [h2]
    intro hch
    exact (List.chain'_cons.mp hch).1 rfl

/-- C6, amended: provided no two *consecutive coarse points coincide* — for
`draw_curve`, consecutive Bezier samples distinct; for `interpolate_path`,
consecutive waypoints distinct — the composed fine sequence has no two
equal adjacent points (the shared point at each segment boundary is emitted
exactly once).  A zero-length segment (the degenerate case of the
counterexample) is the only way to get a repeated adjacent point. -/
theorem path_dedup_amended (step : ℚ) (lenOf : ℚ × ℚ → ℚ × ℚ → ℚ)
    (hstep : 0 < step) :
    (∀ start stop c1 c2 : ℚ × ℚ,
      List.Chain' (· ≠ ·) (generate_bezier_curve start stop c1 c2 100) →
      List.Chain' (· ≠ ·) (draw_curve_points start stop c1 c2 step lenOf)) ∧
    (∀ points : List (ℚ × ℚ), List.Chain' (· ≠ ·) points →
      List.Chain' (· ≠ ·) (interpolate_path points step lenOf)) := by
  constructor
  · intro start stop c1 c2 hch
    exact compose_fine_chain_ne step lenOf hstep _ hch
  · intro points hch
    unfold interpolate_path
    by_cases h : points.length < 2
    · rw [if_pos h]; exact hch
    · rw [if_neg h]; exact compose_fine_chain_ne step lenOf hstep points hch

/-- The straight-line Bezier `(0,0) → (99,0)` with control points at one and
two thirds reduces to `B(t) = (99 t, 0)`, so the 100 samples are exactly
`(0,0), (1,0), …, (99,0)` — pairwise distinct neighbours. -/
theorem bezier_line_samples_chain_ne :
    List.Chain' (· ≠ ·)
      (generate_bezier_curve ((0 : ℚ), (0 : ℚ)) (99, 0) (33, 0) (66, 0) 100) := by
  have hs : generate_bezier_curve ((0 : ℚ), (0 : ℚ)) (99, 0) (33, 0) (66, 0) 100
      = (List.range 100).map fun (i : ℕ) => ((i : ℚ), (0 : ℚ)) := by
    unfold generate_bezier_curve bezier_point
    refine List.map_congr_left ?_
    intro i hi
    simp only [List.mem_range] at hi
    have h99 : (((100 : ℕ) : ℚ) - 1) = 99 := by norm_num
    rw [h99]
    refine Prod.ext ?_ ?_
    · show (1 - (i : ℚ) / 99) ^ 3 * 0 + 3 * (1 - (i : ℚ) / 99) ^ 2 * ((i : ℚ) / 99) * 33
          + 3 * (1 - (i : ℚ) / 99) * ((i : ℚ) / 99) ^ 2 * 66 + ((i : ℚ) / 99) ^ 3 * 99
          = (i : ℚ)
      field_simp
      ring
    · show (1 - (i : ℚ) / 99) ^ 3 * 0 + 3 * (1 - (i : ℚ) / 99) ^ 2 * ((i : ℚ) / 99) * 0
          + 3 * (1 - (i : ℚ) / 99) * ((i : ℚ) / 99) ^ 2 * 0 + ((i : ℚ) / 99) ^ 3 * 0
          = (0 : ℚ)
      ring
  rw [hs, List.chain'_map]
  have h100 : (100 : ℕ) = Nat.succ 99 := rfl
  rw [h100, List.chain'_range_succ]
  intro m hm heq
  have := congrArg Prod.fst heq
  simp only at this
  have hcast : ((m : ℚ)) = ((m.succ : ℚ)) := this
  have : (m : ℚ) + 1 = (m : ℚ) := by push_cast at hcast ⊢; linarith
  linarith

/-- Witness for `path_dedup_amended`: a non-degenerate Bezier (100 distinct
samples along the x-axis) and a 3-waypoint path, both at step 2. -/
theorem path_dedup_amended_witness :
    (0 : ℚ) < 2 ∧
    List.Chain' (· ≠ ·)
      (draw_curve_points ((0 : ℚ), (0 : ℚ)) (99, 0) (33, 0) (66, 0) 2 fun _ _ => 1) ∧
    List.Chain' (· ≠ ·)
      (interpolate_path [((0 : ℚ), (0 : ℚ)), (3, 4), (6, 0)] 2 fun _ _ => 1) :=
  have hstep : (0 : ℚ) < 2 := by norm_num
  have hwp : List.Chain' (· ≠ ·) [((0 : ℚ), (0 : ℚ)), (3, 4), (6, 0)] := by
    norm_num [List.chain'_cons, List.chain'_pair, Prod.ext_iff]
  ⟨hstep,
    (path_dedup_amended 2 (fun _ _ => 1) hstep).1 (0, 0) (99, 0) (33, 0) (66, 0)
      bezier_line_samples_chain_ne,
    (path_dedup_amended 2 (fun _ _ => 1) hstep).2 _ hwp⟩

/-! ## hardware/plotter.py -/

/-- The failure outcomes of the hardware layer.  Each constructor
corresponds to exactly one `raise` site in `hardware/plotter.py`, carrying
that site's data:
* `connectFailed port` — `connect()`: the serial channel could not be
  opened (`serial.SerialException`);
* `notConnected` — `_send_command` called while not connected;
* `commandFailed cmd line` — a response line starting with `"ERROR"`;
* `commandTimeout cmd timeout elapsed` — no terminal response line before
  the timeout (`elapsed` is the wall-clock time at the raise; the polling
  loop's guard guarantees `timeout ≤ elapsed`, and the model records the
  infimum);
* `invalidResponse resp` — `get_pos`: reply is not three whitespace
  separated tokens starting with `"OK"`;
* `parseFailure resp` — `get_pos`: `int()` raised `ValueError` on a token. -/
inductive PErr where
  | connectFailed (port : String)
  | notConnected
  | commandFailed (cmd line : String)
  | commandTimeout (cmd : String) (timeout elapsed : ℚ)
  | invalidResponse (resp : String)
  | parseFailure (resp : String)
deriving DecidableEq

/-- The Python exception class raised at each site: every raise in
`hardware/plotter.py` constructs the single class `PlotterError`
(`class PlotterError(Exception)`); the spec's Connection/Timeout/Command/
Protocol error names are not distinct types in the code. -/
def PErr.pyType : PErr → String
  | .connectFailed _ => "PlotterError"
  | .notConnected => "PlotterError"
  | .commandFailed _ _ => "PlotterError"
  | .commandTimeout _ _ _ => "PlotterError"
  | .invalidResponse _ => "PlotterError"
  | .parseFailure _ => "PlotterError"

/-- Python's `line.startswith(pre)` (total, character-exact). -/
def startswith (pre line : String) : Bool :=
  pre.toList.isPrefixOf line.toList

/-- A response line is terminal iff it starts with the success or the error
token (`_send_command` keeps polling past any other line). -/
def isTerminalLine (line : String) : Bool :=
  startswith "OK" line || startswith "ERROR" line

/-- The polling loop of `Plotter._send_command`:

    while time.time() - start_time < timeout:
        if self.serial.in_waiting:
            line = self.serial.readline().decode().strip()
            if line.startswith("OK"): return line
            elif line.startswith("ERROR"):
                raise PlotterError(f"Command failed: {line}")
        time.sleep(0.01)
    raise PlotterError(f"Command timed out after {timeout}s")

The serial input is modelled as the stripped lines in arrival order,
each paired with its arrival time; a line is read by the loop iff it
arrives strictly before the deadline.  On success the returned line is
paired with the time it was read. -/
def send_command_loop (cmd : String) (timeout : ℚ) :
    List (ℚ × String) → Except PErr (String × ℚ)
  | [] => .error (.commandTimeout cmd timeout timeout)
  | (t, line) :: rest =>
    if t < timeout then
      if startswith "OK" line then .ok (line, t)
      else if startswith "ERROR" line then .error (.commandFailed cmd line)
      else send_command_loop cmd timeout rest
    else .error (.commandTimeout cmd timeout timeout)

/-- `Plotter._send_command(command, timeout)`: raises when not connected,
otherwise flushes stale input (the model's `input` is the post-flush
response stream), writes the command, and polls as in
`send_command_loop`. -/
def send_command (connected : Bool) (cmd : String) (timeout : ℚ)
    (input : List (ℚ × String)) : Except PErr (String × ℚ) :=
  if ¬ connected then .error .notConnected
  else send_command_loop cmd timeout input

/-- `Plotter.connect()`: opening the serial channel either succeeds or
raises `PlotterError(f"Failed to connect to {port}: ...")`. -/
def connect (port : String) (channelOpens : Bool) : Except PErr Unit :=
  if channelOpens then .ok () else .error (.connectFailed port)

/-- Python `str.split()` with no separator: split on runs of whitespace,
dropping empty pieces.  Implemented by structural recursion on the
character list (the builtin `String.split` recurses on string positions,
which the kernel cannot evaluate). -/
def splitWsAux : List Char → List Char → List (List Char)
  | [], acc => if acc.isEmpty then [] else [acc.reverse]
  | c :: cs, acc =>
    if c.isWhitespace then
      if acc.isEmpty then splitWsAux cs [] else acc.reverse :: splitWsAux cs []
    else splitWsAux cs (c :: acc)

/-- `response.split()` from `get_pos`. -/
def tokens (s : String) : List String :=
  (splitWsAux s.toList []).map fun w => String.mk w

/-- Python `int(token)` on the token shapes this protocol produces: an
optional sign followed by decimal digits (Python additionally accepts
underscores, surrounding whitespace and non-ASCII digits; no such token
reaches `get_pos`). `none` models the `ValueError`. -/
def parseNatAux : List Char → ℕ → Option ℕ
  | [], acc => some acc
  | c :: cs, acc =>
    if c.isDigit then parseNatAux cs (acc * 10 + (c.toNat - 48)) else none

def parseNatDigits : List Char → Option ℕ
  | [] => none
  | cs => parseNatAux cs 0

def pyIntOfString (s : String) : Option ℤ :=
  match s.toList with
  | '-' :: cs => (parseNatDigits cs).map fun n => -(n : ℤ)
  | '+' :: cs => (parseNatDigits cs).map fun n => (n : ℤ)
  | cs => (parseNatDigits cs).map fun n => (n : ℤ)

/-- The response-parsing half of `Plotter.get_pos` (the reply `response`
is the line `_send_command("GET_POS", ...)` returned):

    parts = response.split()
    if len(parts) != 3 or parts[0] != "OK":
        raise PlotterError(f"Invalid GET_POS response: {response}")
    try:
        return (int(parts[1]), int(parts[2]))
    except ValueError:
        raise PlotterError(f"Failed to parse GET_POS response: {response}")
-/
def get_pos_parse (response : String) : Except PErr (ℤ × ℤ) :=
  match tokens response with
  | [p0, s1, s2] =>
    if p0 ≠ "OK" then .error (.invalidResponse response)
    else
      match pyIntOfString s1, pyIntOfString s2 with
      | some a, some b => .ok (a, b)
      | _, _ => .error (.parseFailure response)
  | _ => .error (.invalidResponse response)

/-- Skipping non-terminal lines that arrive before the deadline does not
change the result of the polling loop. -/
theorem send_command_loop_skip (cmd : String) (timeout : ℚ)
    (pre l : List (ℚ × String))
    (hpre : ∀ p ∈ pre, p.1 < timeout ∧ isTerminalLine p.2 = false) :
    send_command_loop cmd timeout (pre ++ l) = send_command_loop cmd timeout l := by
  induction pre with
  | nil => rfl
  | cons p pre ih =>
    obtain ⟨ht, hterm⟩ := hpre p (List.mem_cons_self p pre)
    simp only [isTerminalLine, Bool.or_eq_false_iff] at hterm
    obtain ⟨p1, p2⟩ := p
    show send_command_loop cmd timeout ((p1, p2) :: (pre ++ l)) = _
    rw [send_command_loop]
    simp only [ht, if_true, hterm.1, hterm.2, Bool.false_eq_true, if_false]
    exact ih fun q hq => hpre q (List.mem_cons_of_mem _ hq)

/-- C4: with the protocol connected, an `"OK"`-prefixed line arriving
before the timeout (preceded only by non-terminal lines that also arrive in
time) makes `_send_command` return that line; an `"ERROR"`-prefixed line
likewise raises the command-failure error carrying the line content; and if
no terminal line arrives before the timeout, the timeout error is raised at
an elapsed time at least the requested timeout. -/
theorem send_command_protocol (cmd : String) (timeout : ℚ) :
    (∀ (pre : List (ℚ × String)) (t : ℚ) (line : String) (rest : List (ℚ × String)),
      (∀ p ∈ pre, p.1 < timeout ∧ isTerminalLine p.2 = false) →
      t < timeout → startswith "OK" line = true →
      send_command true cmd timeout (pre ++ (t, line) :: rest) = .ok (line, t)) ∧
    (∀ (pre : List (ℚ × String)) (t : ℚ) (line : String) (rest : List (ℚ × String)),
      (∀ p ∈ pre, p.1 < timeout ∧ isTerminalLine p.2 = false) →
      t < timeout → startswith "OK" line = false → startswith "ERROR" line = true →
      send_command true cmd timeout (pre ++ (t, line) :: rest)
        = .error (.commandFailed cmd line)) ∧
    (∀ input : List (ℚ × String),
      (∀ p ∈ input, p.1 < timeout → isTerminalLine p.2 = false) →
      ∃ elapsed : ℚ, timeout ≤ elapsed ∧
        send_command true cmd timeout input
          = .error (.commandTimeout cmd timeout elapsed)) := by
  refine ⟨?_, ?_, ?_⟩
  · intro pre t line rest hpre ht hok
    show send_command_loop cmd timeout (pre ++ (t, line) :: rest) = _
    rw [send_command_loop_skip cmd timeout pre _ hpre, send_command_loop]
    simp [ht, hok]
  · intro pre t line rest hpre ht hnok herr
    show send_command_loop cmd timeout (pre ++ (t, line) :: rest) = _
    rw [send_command_loop_skip cmd timeout pre _ hpre, send_command_loop]
    simp [ht, hnok, herr]
  · intro input hin
    refine ⟨timeout, le_refl timeout, ?_⟩
    show send_command_loop cmd timeout input = _
    induction input with
    | nil => rfl
    | cons p rest ih =>
      obtain ⟨t, line⟩ := p
      rw [send_command_loop]
      by_cases ht : t < timeout
      · have hterm := hin (t, line) (List.mem_cons_self _ _) ht
        simp only [isTerminalLine, Bool.or_eq_false_iff] at hterm
        simp only [ht, if_true, hterm.1, Bool.false_eq_true, if_false, hterm.2]
        exact ih fun q hq hqt => hin q (List.mem_cons_of_mem _ hq) hqt
      · simp [ht]

/-- Witness for `send_command_protocol` at timeout 5 s: a non-terminal
status line at t = 1 followed by `"OK"` at t = 2 returns the `"OK"` line;
an `"ERROR limit"` line at t = 2 raises carrying the line; an input with
only a non-terminal line times out at elapsed ≥ 5. -/
theorem send_command_protocol_witness :
    send_command true "ROTATE 100" 5 [(1, "MOVING"), (2, "OK")] = .ok ("OK", 2) ∧
    send_command true "ROTATE 100" 5 [(1, "MOVING"), (2, "ERROR limit")]
      = .error (.commandFailed "ROTATE 100" "ERROR limit") ∧
    ∃ elapsed : ℚ, (5 : ℚ) ≤ elapsed ∧
      send_command true "ROTATE 100" 5 [(1, "MOVING")]
        = .error (.commandTimeout "ROTATE 100" 5 elapsed) :=
  have hpre : ∀ p ∈ [((1 : ℚ), "MOVING")], p.1 < 5 ∧ isTerminalLine p.2 = false := by
    intro p hp
    simp only [List.mem_singleton] at hp
    subst hp
    exact ⟨by norm_num, by decide⟩
  have hterm : ∀ p ∈ [((1 : ℚ), "MOVING")], p.1 < 5 → isTerminalLine p.2 = false := by
    intro p hp _
    simp only [List.mem_singleton] at hp
    subst hp
    decide
  ⟨(send_command_protocol "ROTATE 100" 5).1 [(1, "MOVING")] 2 "OK" []
      hpre (by norm_num) (by decide),
   (send_command_protocol "ROTATE 100" 5).2.1 [(1, "MOVING")] 2 "ERROR limit" []
      hpre (by norm_num) (by decide) (by decide),
   (send_command_protocol "ROTATE 100" 5).2.2 [(1, "MOVING")] hterm⟩

/-- C8: `get_pos` parses `"OK 1000 500"` to `(1000, 500)`, and every reply
that does not consist of exactly three whitespace-separated tokens with the
success token first is rejected with the invalid-response error (the
`ProtocolError` of the spec's taxonomy). -/
theorem get_pos_parse_spec :
    get_pos_parse "OK 1000 500" = .ok (1000, 500) ∧
    (∀ s : String, ((tokens s).length ≠ 3 ∨ (tokens s).head? ≠ some "OK") →
      get_pos_parse s = .error (.invalidResponse s)) := by
  constructor
  · rfl
  · intro s h
    unfold get_pos_parse
    rcases htok : tokens s with _ | ⟨p0, _ | ⟨s1, _ | ⟨s2, _ | ⟨s3, rest⟩⟩⟩⟩
    · rfl
    · rfl
    · rfl
    · rw [htok] at h
      have hp0 : p0 ≠ "OK" := by
        rcases h with h | h
        · simp at h
        · simpa using h
      simp only [ne_eq, hp0, not_false_eq_true, if_true]
    · rfl

/-- Witness for `get_pos_parse_spec`: the wrong-arity reply `"OK 1000"`. -/
theorem get_pos_parse_spec_witness :
    ((tokens "OK 1000").length ≠ 3 ∨ (tokens "OK 1000").head? ≠ some "OK") ∧
    get_pos_parse "OK 1000" = .error (.invalidResponse "OK 1000") :=
  have h : (tokens "OK 1000").length ≠ 3 ∨ (tokens "OK 1000").head? ≠ some "OK" :=
    Or.inl (by decide)
  ⟨h, get_pos_parse_spec.2 "OK 1000" h⟩

/-- C9: every failure the hardware layer can raise — channel cannot be
opened, command sent while disconnected, an `"ERROR"` reply, no terminal
reply within the timeout, and a malformed `GET_POS` reply — is raised as
the single Python exception class `PlotterError`; no raise site
distinguishes the spec's Connection/Timeout/Command/Protocol error classes
by type. -/
theorem plotter_error_single_type :
    (∀ e : PErr, e.pyType = "PlotterError") ∧
    (∀ port : String, connect port false = .error (.connectFailed port)) ∧
    (∀ (cmd : String) (timeout : ℚ) (input : List (ℚ × String)),
      send_command false cmd timeout input = .error .notConnected) ∧
    send_command true "HOME" 60 [(1, "ERROR limit switch")]
      = .error (.commandFailed "HOME" "ERROR limit switch") ∧
    send_command true "HOME" 60 [] = .error (.commandTimeout "HOME" 60 60) ∧
    get_pos_parse "OK 1000" = .error (.invalidResponse "OK 1000") := by
  refine ⟨fun e => ?_, fun port => rfl, fun cmd timeout input => rfl, ?_, rfl, rfl⟩
  · cases e <;> rfl
  · show send_command_loop "HOME" 60 [(1, "ERROR limit switch")] = _
    rw [send_command_loop]
    rw [if_pos (by norm_num : (1 : ℚ) < 60)]
    rfl

/-! ## control/primitives.py and control/shapes.py -/

/-- A hardware move command issued through the Device Protocol:
`plotter.rotate(steps)` or `plotter.linear(adc)`. -/
inductive Cmd where
  | rotate (steps : ℤ)
  | linear (adc : ℤ)
deriving DecidableEq

/-- A Python exception value: the class name and the message. -/
structure PyExc where
  pyType : String
  msg : String
deriving DecidableEq

/-- `control/shapes.validate_point(x, y)`:

    x_min = -BOARD_WIDTH / 2; x_max = BOARD_WIDTH / 2
    y_min = PEN_OFFSET_MM; y_max = PEN_OFFSET_MM + BOARD_HEIGHT
    if not (x_min <= x <= x_max): raise ValueError(...)
    if not (y_min <= y <= y_max): raise ValueError(...)
    return True

Note the raised class is the builtin `ValueError` (the spec's
`ValidationError`). -/
def validate_point (x y : ℚ) : Except PyExc Bool :=
  if ¬ (-(BOARD_WIDTH / 2) ≤ x ∧ x ≤ BOARD_WIDTH / 2) then
    .error ⟨"ValueError", "X coordinate outside workspace bounds"⟩
  else if ¬ (PEN_OFFSET_MM ≤ y ∧ y ≤ PEN_OFFSET_MM + BOARD_HEIGHT) then
    .error ⟨"ValueError", "Y coordinate outside workspace bounds"⟩
  else .ok true

theorem validate_point_ok_iff (x y : ℚ) :
    validate_point x y = .ok true ↔ InWorkspace x y := by
  unfold validate_point InWorkspace
  constructor
  · intro h
    by_cases h1 : -(BOARD_WIDTH / 2) ≤ x ∧ x ≤ BOARD_WIDTH / 2
    · by_cases h2 : PEN_OFFSET_MM ≤ y ∧ y ≤ PEN_OFFSET_MM + BOARD_HEIGHT
      · exact ⟨h1.1, h1.2, h2.1, h2.2⟩
      · rw [if_neg (not_not_intro h1), if_pos h2] at h
        exact absurd h (by simp)
    · rw [if_pos h1] at h
      exact absurd h (by simp)
  · intro h
    obtain ⟨a, b, c, d⟩ := h
    rw [if_neg (not_not_intro ⟨a, b⟩), if_neg (not_not_intro ⟨c, d⟩)]

theorem validate_point_error_pyType (x y : ℚ) (e : PyExc)
    (h : validate_point x y = .error e) : e.pyType = "ValueError" := by
  unfold validate_point at h
  split_ifs at h <;> simp only [Except.error.injEq] at h <;> subst h <;> rfl

/-- `control/primitives.draw_line(plotter, start, end, step_size)` in terms
of the commands it issues: it interpolates the Cartesian segment and sends
a `ROTATE`/`LINEAR` pair per interpolated point, with **no** workspace
validation and no error path.  `c2h` stands for
`transforms.cartesian_to_hardware` (whose `atan2`/`sqrt` are not
rational-valued; the command *payloads* are opaque to the properties
proved here), and `lenOf` for the `math.sqrt` length used inside
`interpolate_line`. -/
def draw_line (c2h : ℚ × ℚ → ℤ × ℤ) (lenOf : ℚ × ℚ → ℚ × ℚ → ℚ)
    (start stop : ℚ × ℚ) (step : ℚ) : List Cmd :=
  (interpolate_line start stop step (lenOf start stop)).flatMap fun p =>
    [Cmd.rotate (c2h p).1, Cmd.linear (c2h p).2]

/-- The corner-validation loop of `control/shapes.draw_rectangle`: returns
the first validation failure, if any. -/
def validate_corners : List (ℚ × ℚ) → Option PyExc
  | [] => none
  | p :: rest =>
    match validate_point p.1 p.2 with
    | .error e => some ⟨e.pyType, "Corner: " ++ e.msg⟩
    | .ok _ => validate_corners rest

/-- `control/shapes.draw_rectangle(plotter, corners, step_size)` as the
pair (commands issued to the Device Protocol, exception raised):
it first checks the corner count, then validates **all four** corners, and
only then draws the four sides via `draw_line` — so on any validation
failure the command trace is empty.  (The source's drawing loop also
passes a `progress_callback` argument that `primitives.draw_line` does not
accept — a latent `TypeError` on the success path, outside the scope of
the properties proved here, which concern the validation path.) -/
def draw_rectangle (c2h : ℚ × ℚ → ℤ × ℤ) (lenOf : ℚ × ℚ → ℚ × ℚ → ℚ)
    (corners : List (ℚ × ℚ)) (step : ℚ) : List Cmd × Option PyExc :=
  match corners with
  | [a, b, c, d] =>
    match validate_corners [a, b, c, d] with
    | some e => ([], some e)
    | none =>
        (draw_line c2h lenOf a b step ++ draw_line c2h lenOf b c step
          ++ draw_line c2h lenOf c d step ++ draw_line c2h lenOf d a step, none)
  | _ => ([], some ⟨"ValueError", "Rectangle requires exactly 4 corners"⟩)

/-- Two commands are issued per interpolated point. -/
theorem draw_line_length (c2h : ℚ × ℚ → ℤ × ℤ) (lenOf : ℚ × ℚ → ℚ × ℚ → ℚ)
    (start stop : ℚ × ℚ) (step : ℚ) :
    (draw_line c2h lenOf start stop step).length
      = 2 * (interpolate_line start stop step (lenOf start stop)).length := by
  unfold draw_line
  generalize interpolate_line start stop step (lenOf start stop) = l
  induction l with
  | nil => rfl
  | cons p rest ih =>
    simp only [List.flatMap_cons, List.length_append, ih, List.length_cons,
      List.length_nil]
    omega

/-- If some corner is out of workspace bounds, the validation loop reports
a `ValueError`. -/
theorem validate_corners_fails (corners : List (ℚ × ℚ))
    (hbad : ∃ p ∈ corners, ¬ InWorkspace p.1 p.2) :
    ∃ e, validate_corners corners = some e ∧ e.pyType = "ValueError" := by
  induction corners with
  | nil => simp at hbad
  | cons p rest ih =>
    rw [validate_corners]
    cases hv : validate_point p.1 p.2 with
    | error e =>
      exact ⟨⟨e.pyType, "Corner: " ++ e.msg⟩, rfl, validate_point_error_pyType p.1 p.2 e hv⟩
    | ok b =>
      have hb : b = true := by
        unfold validate_point at hv
        split_ifs at hv
        simp only [Except.ok.injEq] at hv
        exact hv.symm
      subst hb
      have hin : InWorkspace p.1 p.2 := (validate_point_ok_iff p.1 p.2).mp hv
      obtain ⟨q, hq, hqbad⟩ := hbad
      rcases List.mem_cons.mp hq with hqp | hqrest
      · subst hqp; exact absurd hin hqbad
      · exact ih ⟨q, hqrest, hqbad⟩

/-- C5, counterexample: `draw_line` — a drawing operation exported by the
control package — performs **no** workspace validation: given the endpoint
(200, 160), which `validate_point` rejects (x = 200 > 140), it issues 402
commands to the Device Protocol (201 interpolated points over the 200 mm
segment from (0, 160), a rotate/linear pair each) and raises nothing — its
type has no error outcome at all.  (The transform argument is irrelevant to
the command count; a constant stub is passed.) -/
theorem draw_line_no_validation_counterexample :
    (∃ e, validate_point 200 160 = .error e ∧ e.pyType = "ValueError") ∧
    (draw_line (fun _ => (0, 0)) (fun _ _ => 200) ((0 : ℚ), (160 : ℚ)) (200, 160) 1).length
      = 402 := by
  constructor
  · refine ⟨⟨"ValueError", "X coordinate outside workspace bounds"⟩, ?_, rfl⟩
    unfold validate_point
    rw [if_pos]
    norm_num [BOARD_WIDTH]
  · rw [draw_line_length]
    have hlen : (interpolate_line ((0 : ℚ), (160 : ℚ)) (200, 160) 1 200).length
        = ⌈(200 : ℚ) / 1⌉.toNat + 1 :=
      interpolate_line_length_long _ _ (by norm_num) (by norm_num)
    rw [hlen]
    have h200 : ⌈(200 : ℚ) / 1⌉ = 200 := by norm_num
    rw [h200]
    rfl

/-- C5, amended: the drawing operations that validate — `draw_rectangle`
(and `draw_circle`, built on the same corner check) — raise the validation
`ValueError` (the spec's ValidationError) *before* any hardware I/O: if any
corner lies outside workspace bounds, the command trace is empty and the
raised exception is a `ValueError`.  The line/curve primitives
(`draw_line`, `draw_curve`) perform no validation themselves (see the
counterexample). -/
theorem draw_rectangle_fail_fast (c2h : ℚ × ℚ → ℤ × ℤ)
    (lenOf : ℚ × ℚ → ℚ × ℚ → ℚ) (corners : List (ℚ × ℚ)) (step : ℚ)
    (hbad : ∃ p ∈ corners, ¬ InWorkspace p.1 p.2) :
    (draw_rectangle c2h lenOf corners step).1 = [] ∧
    ∃ e, (draw_rectangle c2h lenOf corners step).2 = some e ∧ e.pyType = "ValueError" := by
  match corners with
  | [a, b, c, d] =>
    obtain ⟨e, he, hty⟩ := validate_corners_fails [a, b, c, d] hbad
    simp only [draw_rectangle]
    rw [he]
    exact ⟨rfl, e, rfl, hty⟩
  | [] => simp at hbad
  | [a] => exact ⟨rfl, _, rfl, rfl⟩
  | [a, b] => exact ⟨rfl, _, rfl, rfl⟩
  | [a, b, c] => exact ⟨rfl, _, rfl, rfl⟩
  | a :: b :: c :: d :: e :: rest => exact ⟨rfl, _, rfl, rfl⟩

/-- Witness for `draw_rectangle_fail_fast`: the rectangle with corner
(200, 160) — the spec's end-to-end scenario with board half-width 140 mm —
issues zero commands. -/
theorem draw_rectangle_fail_fast_witness :
    (∃ p ∈ [((200 : ℚ), (160 : ℚ)), (0, 200), (50, 250), (0, 300)],
        ¬ InWorkspace p.1 p.2) ∧
    (draw_rectangle (fun _ => (0, 0)) (fun _ _ => 1)
        [((200 : ℚ), (160 : ℚ)), (0, 200), (50, 250), (0, 300)] 1).1 = [] :=
  have hbad : ∃ p ∈ [((200 : ℚ), (160 : ℚ)), (0, 200), (50, 250), (0, 300)],
      ¬ InWorkspace p.1 p.2 := by
    refine ⟨(200, 160), List.mem_cons_self _ _, ?_⟩
    norm_num [InWorkspace, BOARD_WIDTH]
  ⟨hbad,
    (draw_rectangle_fail_fast (fun _ => (0, 0)) (fun _ _ => 1)
      [((200 : ℚ), (160 : ℚ)), (0, 200), (50, 250), (0, 300)] 1 hbad).1⟩

/-! ## control/executor.py -/

/-- `executor.PathSegment` (the wall-clock `start_time`/`end_time` fields
and the derived `duration` property are real-time data outside the model;
`completed` defaults to `False`). -/
structure PathSegment where
  index : ℕ
  start : ℚ × ℚ
  stop : ℚ × ℚ
  length : ℚ
  completed : Bool
deriving DecidableEq

/-- `PathExecutor.set_path(points)`: each consecutive waypoint pair becomes
one `PathSegment` with index `i`, `completed = False` and precomputed
Euclidean length (`(dx**2 + dy**2) ** 0.5` — irrational in general, so
supplied by the `lenOf` oracle). -/
def set_path_aux (lenOf : ℚ × ℚ → ℚ × ℚ → ℚ) : ℕ → List (ℚ × ℚ) → List PathSegment
  | _, [] => []
  | _, [_] => []
  | i, p :: q :: rest =>
      ⟨i, p, q, lenOf p q, false⟩ :: set_path_aux lenOf (i + 1) (q :: rest)

def set_path (points : List (ℚ × ℚ)) (lenOf : ℚ × ℚ → ℚ × ℚ → ℚ) : List PathSegment :=
  set_path_aux lenOf 0 points

/-- The command loop of `PathExecutor._execute_segment`: per interpolated
point, `plotter.rotate(steps)` then `plotter.linear(adc)`.  The device is
modelled by `dev`, giving for the n-th command issued in this execution
either `none` (an `"OK"` reply) or `some e` (the `PlotterError` that
`_send_command` raises there); an error propagates immediately.  Returns
the command counter after the segment. -/
def exec_points (dev : ℕ → Cmd → Option PErr) (c2h : ℚ × ℚ → ℤ × ℤ) :
    ℕ → List (ℚ × ℚ) → Except PErr ℕ
  | n, [] => .ok n
  | n, p :: rest =>
    match dev n (Cmd.rotate (c2h p).1) with
    | some e => .error e
    | none =>
      match dev (n + 1) (Cmd.linear (c2h p).2) with
      | some e => .error e
      | none => exec_points dev c2h (n + 2) rest

/-- The segment loop of `PathExecutor.execute`: segments in index order;
each is interpolated at the configured step size and its points sent; the
`completed` flag is set only after **all** its points were sent; a device
failure aborts the whole loop at once, leaving the failing segment and all
later ones untouched.  Returns the final segment list, the command counter
and the propagated error, if any. -/
def execute_segments (dev : ℕ → Cmd → Option PErr) (c2h : ℚ × ℚ → ℤ × ℤ)
    (step : ℚ) (lenOf : ℚ × ℚ → ℚ × ℚ → ℚ) :
    ℕ → List PathSegment → List PathSegment × ℕ × Option PErr
  | n, [] => ([], n, none)
  | n, seg :: rest =>
    match exec_points dev c2h n
        (interpolate_line seg.start seg.stop step (lenOf seg.start seg.stop)) with
    | .error e => (seg :: rest, n, some e)
    | .ok n' =>
      let r := execute_segments dev c2h step lenOf n' rest
      ({ seg with completed := true } :: r.1, r.2.1, r.2.2)

/-- Outcome of `PathExecutor.execute()`: `raise ValueError` when no path
was set, else the updated segments plus the propagated device error, if
any. -/
inductive ExecOutcome where
  | noPath (e : PyExc)
  | ran (segs : List PathSegment) (err : Option PErr)
deriving DecidableEq

def execute (dev : ℕ → Cmd → Option PErr) (c2h : ℚ × ℚ → ℤ × ℤ)
    (step : ℚ) (lenOf : ℚ × ℚ → ℚ × ℚ → ℚ) (segs : List PathSegment) : ExecOutcome :=
  if segs.isEmpty then
    .noPath ⟨"ValueError", "No path segments defined. Call set_path() first."⟩
  else
    let r := execute_segments dev c2h step lenOf 0 segs
    .ran r.1 r.2.2

/-- Segments produced by `set_path` all start out not completed. -/
theorem set_path_aux_not_completed (lenOf : ℚ × ℚ → ℚ × ℚ → ℚ) :
    ∀ (points : List (ℚ × ℚ)) (i : ℕ) (s : PathSegment),
      s ∈ set_path_aux lenOf i points → s.completed = false := by
  intro points
  induction points with
  | nil => intro i s hs; cases hs
  | cons p rest ih =>
    intro i s hs
    match rest with
    | [] => cases hs
    | q :: rest' =>
      rw [set_path_aux] at hs
      rcases List.mem_cons.mp hs with h | h
      · rw [h]
      · exact ih i.succ s h

/-- All-incomplete segment lists map to all-`false` flags. -/
theorem map_completed_all_false (l : List PathSegment)
    (h : ∀ s ∈ l, s.completed = false) :
    l.map PathSegment.completed = List.replicate l.length false := by
  induction l with
  | nil => rfl
  | cons a t ih =>
    simp only [List.map_cons, List.length_cons, List.replicate_succ, List.cons.injEq]
    exact ⟨h a (List.mem_cons_self a t), ih fun s hs => h s (List.mem_cons_of_mem a hs)⟩

/-- Flag bookkeeping of the segment loop: starting from all-incomplete
segments, a run that ends in a device error leaves exactly the strict
prefix before the failing segment completed — the failing segment and all
later ones keep `completed = False`, all earlier ones have
`completed = True`, and no segment is added or dropped. -/
theorem execute_segments_fail_flags (dev : ℕ → Cmd → Option PErr)
    (c2h : ℚ × ℚ → ℤ × ℤ) (step : ℚ) (lenOf : ℚ × ℚ → ℚ × ℚ → ℚ) :
    ∀ (segs : List PathSegment) (n : ℕ) (e : PErr),
      (∀ s ∈ segs, s.completed = false) →
      (execute_segments dev c2h step lenOf n segs).2.2 = some e →
      (execute_segments dev c2h step lenOf n segs).1.length = segs.length ∧
      ∃ k, k < segs.length ∧
        (execute_segments dev c2h step lenOf n segs).1.map PathSegment.completed
          = List.replicate k true ++ List.replicate (segs.length - k) false := by
  intro segs
  induction segs with
  | nil => intro n e _ herr; cases herr
  | cons seg rest ih =>
    intro n e hflags herr
    rw [execute_segments] at herr ⊢
    cases hx : exec_points dev c2h n
        (interpolate_line seg.start seg.stop step (lenOf seg.start seg.stop)) with
    | error e' =>
      refine ⟨rfl, 0, Nat.succ_pos _, ?_⟩
      show List.map PathSegment.completed (seg :: rest)
          = List.replicate 0 true ++ List.replicate ((seg :: rest).length - 0) false
      simp only [List.replicate_zero, List.nil_append, Nat.sub_zero]
      exact map_completed_all_false (seg :: rest) hflags
    | ok n' =>
      rw [hx] at herr
      have hrest : ∀ s ∈ rest, s.completed = false :=
        fun s hs => hflags s (List.mem_cons_of_mem seg hs)
      have herr' : (execute_segments dev c2h step lenOf n' rest).2.2 = some e := herr
      obtain ⟨hlen, k, hk, hmap⟩ := ih n' e hrest herr'
      refine ⟨?_, k + 1, ?_, ?_⟩
      · show ({ seg with completed := true }
            :: (execute_segments dev c2h step lenOf n' rest).1).length
            = (seg :: rest).length
        simp only [List.length_cons, hlen]
      · simp only [List.length_cons]
        omega
      · show List.map PathSegment.completed ({ seg with completed := true }
            :: (execute_segments dev c2h step lenOf n' rest).1)
            = List.replicate (k + 1) true
                ++ List.replicate ((seg :: rest).length - (k + 1)) false
        simp only [List.map_cons, List.replicate_succ, List.cons_append,
          List.length_cons, List.cons.injEq, Nat.succ_sub_succ]
        exact ⟨trivial, hmap⟩

/-- C7: if the Device Protocol raises during segment k of a path registered
with `set_path`, execution aborts at once: the returned segment list has
the same length, the first k segments are `completed = True` and segment k
together with every later segment is `completed = False` (no roll-back of
completed segments, nothing after the failure executed). -/
theorem executor_abort_semantics (dev : ℕ → Cmd → Option PErr)
    (c2h : ℚ × ℚ → ℤ × ℤ) (step : ℚ) (lenOf : ℚ × ℚ → ℚ × ℚ → ℚ)
    (points : List (ℚ × ℚ)) (segs' : List PathSegment) (e : PErr)
    (hrun : execute dev c2h step lenOf (set_path points lenOf) = .ran segs' (some e)) :
    segs'.length = (set_path points lenOf).length ∧
    ∃ k, k < segs'.length ∧
      segs'.map PathSegment.completed
        = List.replicate k true ++ List.replicate (segs'.length - k) false := by
  unfold execute at hrun
  by_cases hemp : (set_path points lenOf).isEmpty
  · rw [if_pos hemp] at hrun; cases hrun
  · rw [if_neg hemp] at hrun
    simp only [ExecOutcome.ran.injEq] at hrun
    obtain ⟨hsegs, herr⟩ := hrun
    have hflags : ∀ s ∈ set_path points lenOf, s.completed = false :=
      fun s hs => set_path_aux_not_completed lenOf points 0 s hs
    obtain ⟨hlen, k, hk, hmap⟩ :=
      execute_segments_fail_flags dev c2h step lenOf (set_path points lenOf) 0 e
        hflags herr
    subst hsegs
    exact ⟨hlen, k, by rwa [hlen], by rwa [hlen]⟩

/-- Witness for `executor_abort_semantics`: a 3-segment path along the
y-axis (each segment 3 mm, interpolated in one hop at step 5) against a
device that fails at the 6th command, i.e. during segment 1: the run
returns flags [true, false, false]. -/
theorem executor_abort_semantics_witness :
    execute (fun n _ => if n = 5 then some PErr.notConnected else none)
        (fun _ => (0, 0)) 5 (fun _ _ => 3)
        (set_path [((0 : ℚ), (0 : ℚ)), (0, 3), (0, 6), (0, 9)] fun _ _ => 3)
      = .ran
          [⟨0, (0, 0), (0, 3), 3, true⟩, ⟨1, (0, 3), (0, 6), 3, false⟩,
            ⟨2, (0, 6), (0, 9), 3, false⟩] (some PErr.notConnected) ∧
    ∃ k, k < ([⟨0, (0, 0), (0, 3), 3, true⟩, ⟨1, (0, 3), (0, 6), 3, false⟩,
            ⟨2, (0, 6), (0, 9), 3, false⟩] : List PathSegment).length ∧
      ([⟨0, (0, 0), (0, 3), 3, true⟩, ⟨1, (0, 3), (0, 6), 3, false⟩,
            ⟨2, (0, 6), (0, 9), 3, false⟩] : List PathSegment).map PathSegment.completed
        = List.replicate k true
            ++ List.replicate (([⟨0, (0, 0), (0, 3), 3, true⟩,
                  ⟨1, (0, 3), (0, 6), 3, false⟩,
                  ⟨2, (0, 6), (0, 9), 3, false⟩] : List PathSegment).length - k) false :=
  have hrun : execute (fun n _ => if n = 5 then some PErr.notConnected else none)
      (fun _ => (0, 0)) 5 (fun _ _ => 3)
      (set_path [((0 : ℚ), (0 : ℚ)), (0, 3), (0, 6), (0, 9)] fun _ _ => 3)
    = .ran
        [⟨0, (0, 0), (0, 3), 3, true⟩, ⟨1, (0, 3), (0, 6), 3, false⟩,
          ⟨2, (0, 6), (0, 9), 3, false⟩] (some PErr.notConnected) := by
    have hILgen : ∀ p q : ℚ × ℚ, interpolate_line p q 5 3 = [p, q] :=
      fun p q => interpolate_line_short (by norm_num)
    unfold execute set_path set_path_aux
    simp [execute_segments, exec_points, set_path_aux, hILgen]
  ⟨hrun,
    ((executor_abort_semantics (fun n _ => if n = 5 then some PErr.notConnected else none)
        (fun _ => (0, 0)) 5 (fun _ _ => 3)
        [((0 : ℚ), (0 : ℚ)), (0, 3), (0, 6), (0, 9)]
        [⟨0, (0, 0), (0, 3), 3, true⟩, ⟨1, (0, 3), (0, 6), 3, false⟩,
          ⟨2, (0, 6), (0, 9), 3, false⟩] PErr.notConnected hrun).2)⟩

end PenPlotter
